import Mathlib

/-!
Verification of the geocoder decorator pipeline
(packages/core/src/geocoder/decorators: Cache, Throttler, Fallback,
LoadBalancer), shallowly embedded from the TypeScript source.

The Cache decorator is modelled as a small-step machine whose steps are
the atomic segments of the async search body between await points; the
scheduler (a list of actions) chooses the interleaving.  Fallback,
Throttler and LoadBalancer are synchronous in the source up to single
promise chains, so they are modelled as functions that also report which
wrapped geocoders were invoked and with which arguments.
-/

namespace Geocoder

/-- The canonical result entity (entities/Address), fields per the zod
schema: source, name, type, confidence, optional geography. -/
structure Address where
  source : String
  name : String
  type : String
  confidence : Int
  country : Option String := none
  country_code : Option String := none
  addrState : Option String := none
  city : Option String := none
deriving DecidableEq, Repr

/-- Queries are plain strings. -/
abbrev Query := String

/-- Errors that can surface from the pipeline.  requestAborted models the
RequestAbortedError class (errors/index.ts); pqAbort models the abort
rejection produced by the external p-queue library when the given signal
is already aborted; jsError models a plain Error with the given message
(the LoadBalancer queue-full throw constructs one); storageErr models a
rejection coming from the cache storage layer; providerErr models an
upstream provider failure. -/
inductive GeoErr where
  | requestAborted (q : Query)
  | pqAbort
  | jsError (msg : String)
  | storageErr (msg : String)
  | providerErr (msg : String)
deriving DecidableEq, Repr

/-- Outcome of a wrapped geocoder search: resolves with Address or null,
or rejects with an error. -/
inductive UpRes where
  | ok (v : Option Address)
  | error (e : GeoErr)
deriving DecidableEq, Repr

/-- Values held by the cache store: an Address, or the negative sentinel
false written by cache.set(q, address || false). -/
inductive StoreVal where
  | sAddr (a : Address)
  | sFalse
deriving DecidableEq, Repr

/-- Run-time values Cache.search can resolve with.  The source is typed
Promise of Address or null, but the sentinel branch returns the JS value
false itself (cached ?? null does not coalesce false), so false is a
distinct possible resolution value. -/
inductive SValue where
  | addr (a : Address)
  | nullv
  | falsev
deriving DecidableEq, Repr

/-- Conversion used when the upstream promise resolves: the promise of
the dedup map resolves with address (Address or null) as returned by the
then handler in Cache.search. -/
def svalOf : Option Address → SValue
  | some a => .addr a
  | none => .nullv

/-- Value written to the store by cache.set(q, address || false). -/
def storeValOf : Option Address → StoreVal
  | some a => .sAddr a
  | none => .sFalse

/-- Outcome a caller of Cache.search finishes with. -/
inductive COutcome where
  | ok (v : SValue)
  | error (e : GeoErr)
deriving DecidableEq, Repr

/-- Result a caller of the shared promise observes once it settles. -/
def deliverOutcome : UpRes → COutcome
  | .ok v => .ok (svalOf v)
  | .error e => .error e

/-! ## List helpers (JS Map and array model) -/

/-- Positional lookup (self-contained to keep rewriting predictable). -/
def nth {α : Type} : List α → Nat → Option α
  | [], _ => none
  | a :: _, 0 => some a
  | _ :: t, n + 1 => nth t n

@[simp] theorem nth_nil {α : Type} (i : Nat) : nth ([] : List α) i = none := rfl

/-- Lookup in an association list, first match wins (Map.get). -/
def alookup {β : Type} : List (Query × β) → Query → Option β
  | [], _ => none
  | (k, v) :: t, q => if k = q then some v else alookup t q

/-- Deletion from an association list (Map.delete; keys are unique by
invariant, so filtering all matches is equivalent). -/
def aerase {β : Type} (l : List (Query × β)) (q : Query) : List (Query × β) :=
  l.filter (fun p => p.1 ≠ q)

/-- Pair each element with its position, starting at n (array index
bookkeeping for map and reduce callbacks). -/
def enumFromIdx {α : Type} : Nat → List α → List (Nat × α)
  | _, [] => []
  | n, a :: t => (n, a) :: enumFromIdx (n + 1) t

/-! ## The Cache decorator machine (part_011 Cache.search) -/

/-- Phase of one caller of Cache.search.  idle: call not yet started;
awaitingGet: past the abort check, awaiting this.cache.get(q); joined r:
awaiting the shared promise of upstream request r (either as its
initiator or deduplicated onto it); done: the call settled. -/
inductive CallPhase where
  | idle
  | awaitingGet
  | joined (r : Nat)
  | done (o : COutcome)
deriving DecidableEq, Repr

/-- One caller: its query, its optional abort-signal id, its phase. -/
structure Caller where
  q : Query
  sig : Option Nat
  phase : CallPhase
deriving DecidableEq, Repr

/-- One upstream request started by Cache.search: the query, the signal
of the initiating caller (the options captured by the then handler), and
its settlement (none while in flight). -/
structure UpReq where
  q : Query
  sig : Option Nat
  settled : Option UpRes
deriving DecidableEq, Repr

/-- A fire-and-forget cache write that has been issued but has not yet
completed (cache.set is not awaited). -/
structure PendWrite where
  q : Query
  v : StoreVal
deriving DecidableEq, Repr

/-- Global state of one Cache instance together with its callers. -/
structure CacheState where
  store : List (Query × StoreVal)
  pending : List (Query × Nat)
  reqs : List UpReq
  writes : List PendWrite
  abortedSigs : List Nat
  callers : List Caller
deriving DecidableEq, Repr

/-- Whether an optional signal is aborted in the given state. -/
def sigIsAborted (s : CacheState) : Option Nat → Bool
  | none => false
  | some i => s.abortedSigs.contains i

/-- Scheduler actions.  issue c: caller c invokes search (the body runs
synchronously through the abort check up to awaiting cache.get); getOk c:
the cache read of caller c resolves, and the continuation (cache-hit
check, pending-map check, possibly starting the upstream call and
registering it) runs synchronously; getFail c msg: the cache read of
caller c rejects; settle r: upstream request r settles and its then and
finally handlers run (conditional fire-and-forget write, pending-map
delete); writeOk and writeFail: a pending cache write completes or fails
(failure is swallowed by the catch handler); deliver c: the shared
promise a caller awaits has settled and the caller resumes; abortSig s:
abort signal s fires. -/
inductive Act where
  | issue (c : Nat)
  | getOk (c : Nat)
  | getFail (c : Nat) (msg : String)
  | settle (r : Nat)
  | writeOk (w : Nat)
  | writeFail (w : Nat)
  | deliver (c : Nat)
  | abortSig (sg : Nat)
deriving DecidableEq, Repr

/-- Initial caller record. -/
def initCaller (p : Query × Option Nat) : Caller :=
  { q := p.1, sig := p.2, phase := .idle }

/-- Initial state: empty store, empty pending map, given callers. -/
def initState (cs : List (Query × Option Nat)) : CacheState :=
  { store := [], pending := [], reqs := [], writes := [], abortedSigs := [],
    callers := cs.map initCaller }

/-- One machine step; the parameter up gives the outcome the wrapped
geocoder produces for each query.  Returns none when the action is not
enabled.  Each arm is a direct translation of a segment of Cache.search
in part_011 (first document, lines 70 to 117). -/
def step (up : Query → UpRes) (s : CacheState) : Act → Option CacheState
  | .issue c =>
    match nth s.callers c with
    | some cl =>
      match cl.phase with
      | .idle =>
        if sigIsAborted s cl.sig then
          some { s with callers :=
            s.callers.set c { cl with phase := .done (.error (.requestAborted cl.q)) } }
        else
          some { s with callers := s.callers.set c { cl with phase := .awaitingGet } }
      | _ => none
    | none => none
  | .getOk c =>
    match nth s.callers c with
    | some cl =>
      match cl.phase with
      | .awaitingGet =>
        match alookup s.store cl.q with
        | some (.sAddr a) =>
          some { s with callers :=
            s.callers.set c { cl with phase := .done (.ok (.addr a)) } }
        | some .sFalse =>
          some { s with callers :=
            s.callers.set c { cl with phase := .done (.ok .falsev) } }
        | none =>
          match alookup s.pending cl.q with
          | some r =>
            some { s with callers := s.callers.set c { cl with phase := .joined r } }
          | none =>
            some { s with
              reqs := s.reqs ++ [{ q := cl.q, sig := cl.sig, settled := none }],
              pending := (cl.q, s.reqs.length) :: s.pending,
              callers := s.callers.set c { cl with phase := .joined s.reqs.length } }
      | _ => none
    | none => none
  | .getFail c msg =>
    match nth s.callers c with
    | some cl =>
      match cl.phase with
      | .awaitingGet =>
        some { s with callers :=
          s.callers.set c { cl with phase := .done (.error (.storageErr msg)) } }
      | _ => none
    | none => none
  | .settle r =>
    match nth s.reqs r with
    | some rq =>
      match rq.settled with
      | none =>
        let out := up rq.q
        let newWrites :=
          match out with
          | .ok v =>
            if sigIsAborted s rq.sig then s.writes
            else s.writes ++ [{ q := rq.q, v := storeValOf v }]
          | .error _ => s.writes
        some { s with
          reqs := s.reqs.set r { rq with settled := some out },
          pending := aerase s.pending rq.q,
          writes := newWrites }
      | some _ => none
    | none => none
  | .writeOk w =>
    match nth s.writes w with
    | some pw =>
      some { s with store := (pw.q, pw.v) :: s.store, writes := s.writes.eraseIdx w }
    | none => none
  | .writeFail w =>
    match nth s.writes w with
    | some _ => some { s with writes := s.writes.eraseIdx w }
    | none => none
  | .deliver c =>
    match nth s.callers c with
    | some cl =>
      match cl.phase with
      | .joined r =>
        match nth s.reqs r with
        | some rq =>
          match rq.settled with
          | some out =>
            some { s with callers :=
              s.callers.set c { cl with phase := .done (deliverOutcome out) } }
          | none => none
        | none => none
      | _ => none
    | none => none
  | .abortSig sg => some { s with abortedSigs := sg :: s.abortedSigs }

/-- Total step: a disabled action leaves the state unchanged. -/
def stepOr (up : Query → UpRes) (s : CacheState) (a : Act) : CacheState :=
  (step up s a).getD s

/-- Run a schedule of actions from the initial state. -/
def run (up : Query → UpRes) (cs : List (Query × Option Nat)) (acts : List Act) :
    CacheState :=
  acts.foldl (stepOr up) (initState cs)

/-! ## Fallback decorator (part_005 Fallback.search) -/

/-- Fallback.search: primary.search(q, options) followed by a then
handler returning address ?? fallback.search(q, options).  There is no
rejection handler, so a primary rejection propagates and the secondary
is not called.  Returns the outcome together with the number of calls
made to primary and to secondary. -/
def fallbackSearch (primary secondary : Query → Option Bool → UpRes)
    (q : Query) (opts : Option Bool) : UpRes × Nat × Nat :=
  match primary q opts with
  | .ok (some a) => (.ok (some a), 1, 0)
  | .ok none => (secondary q opts, 1, 1)
  | .error e => (.error e, 1, 0)

/-! ## Throttler decorator (decorators/Throttler.ts) -/

/-- Throttler.search: queue.add(() => this.geocoder.search(q), options).
The second argument hands the abort signal to p-queue, whose documented
contract is to reject the add with an abort error, without running the
task, when the signal is already aborted.  The wrapped geocoder is a
function of the query and of the options argument it receives; the task
built by Throttler.search passes no options.  Options are modelled as
Option Bool: none means no signal, some b a signal whose aborted flag is
b.  Returns the outcome and the log of calls made to the wrapped
geocoder (query and options each call received). -/
def throttlerSearch (geo : Query → Option Bool → UpRes) (q : Query)
    (opts : Option Bool) : UpRes × List (Query × Option Bool) :=
  if opts = some true then (.error .pqAbort, [])
  else (geo q none, [(q, none)])

/-! ## LoadBalancer decorator (second document of decorators/Cache.ts,
the revision with admission control; selection logic identical to
decorators/LoadBalancer.ts lines 63 to 82) -/

/-- Per-provider queue counters read for routing: queue.size and
queue.pending. -/
structure Provider where
  queueSize : Nat
  pendingCount : Nat
deriving DecidableEq, Repr

/-- Load of a provider: queue.size + queue.pending. -/
def load (p : Provider) : Nat := p.queueSize + p.pendingCount

/-- The reduce body: keep best unless the current load is strictly
smaller.  Elements are paired with their index. -/
def selectFrom (best : Nat × Provider) (rest : List (Nat × Provider)) :
    Nat × Provider :=
  rest.foldl (fun b c => if load c.2 < load b.2 then c else b) best

/-- providers.reduce((best, current) => currentLoad < bestLoad ? current
: best): JS reduce with no initial value starts from element 0. -/
def select (ps : List Provider) : Option (Nat × Provider) :=
  match enumFromIdx 0 ps with
  | [] => none
  | b :: rest => some (selectFrom b rest)

/-- Result of one LoadBalancer.search call: the outcome, the indices of
providers whose wrapped geocoder chain was invoked, the queue the task
was enqueued on, and the queue-full stat increment. -/
structure LbOut where
  outcome : UpRes
  invoked : List Nat
  enqueuedOn : Option Nat
  queueFullCount : Nat
deriving DecidableEq, Repr

/-- The queue-full message thrown by the admission check. -/
def queueFullMsg (maxQ : Nat) : String :=
  "Queue full: exceeded maximum size of " ++ toString maxQ

/-- LoadBalancer.search: select the least-loaded provider (first minimum
wins), reject with the queue-full Error when its load already meets the
configured maximum, otherwise add the call to that provider queue
(p-queue add rejects without running the task when the signal is already
aborted).  geo i q is the outcome of the wrapped chain of provider i;
none is returned only for an empty provider list, which the constructor
rejects. -/
def lbSearch (ps : List Provider) (geo : Nat → Query → UpRes) (maxQ : Nat)
    (q : Query) (sigA : Option Bool) : Option LbOut :=
  match select ps with
  | none => none
  | some (i, p) =>
    if maxQ ≤ load p then
      some { outcome := .error (.jsError (queueFullMsg maxQ)),
             invoked := [], enqueuedOn := none, queueFullCount := 1 }
    else if sigA = some true then
      some { outcome := .error .pqAbort,
             invoked := [], enqueuedOn := some i, queueFullCount := 0 }
    else
      some { outcome := geo i q,
             invoked := [i], enqueuedOn := some i, queueFullCount := 0 }

/-! ## LoadBalancer constructor wiring (providers wrapped in Fallback
chains over their peers) -/

/-- Syntactic tree of Fallback wrappings over base geocoders. -/
inductive FTree (α : Type) where
  | base (g : α)
  | fb (primary secondary : FTree α)
deriving DecidableEq, Repr

/-- geocoders.filter((_, i) => i !== index).reduce((mem, geo) => new
Fallback(mem, geo), geocoder): the wrapped geocoder of the provider at
position idx holding geocoder g. -/
def lbWrap {α : Type} (gs : List α) (idx : Nat) (g : α) : FTree α :=
  (((enumFromIdx 0 gs).filter (fun p => p.1 ≠ idx)).map Prod.snd).foldl
    (fun mem geo => .fb mem (.base geo)) (.base g)

/-- The provider list built by the LoadBalancer constructor (geocoder
components only; each provider also gets a fresh queue). -/
def lbProviders {α : Type} (gs : List α) : List (FTree α) :=
  (enumFromIdx 0 gs).map (fun p => lbWrap gs p.1 p.2)

/-! ## List helper lemmas -/

theorem nth_lt_length {α : Type} (l : List α) (i : Nat) (x : α)
    (h : nth l i = some x) : i < l.length := by
  induction l generalizing i with
  | nil => simp at h
  | cons a t ih =>
    cases i with
    | zero => simp
    | succ n => exact Nat.succ_lt_succ (ih n h)

theorem nth_append_left {α : Type} (l l2 : List α) (i : Nat)
    (h : i < l.length) : nth (l ++ l2) i = nth l i := by
  induction l generalizing i with
  | nil => simp at h
  | cons a t ih =>
    cases i with
    | zero => rfl
    | succ n => exact ih n (Nat.lt_of_succ_lt_succ h)

theorem nth_concat_length {α : Type} (l : List α) (a : α) :
    nth (l ++ [a]) l.length = some a := by
  induction l with
  | nil => rfl
  | cons b t ih => exact ih

theorem nth_append_cases {α : Type} (l : List α) (a : α) (i : Nat) (x : α)
    (h : nth (l ++ [a]) i = some x) :
    (i < l.length ∧ nth l i = some x) ∨ (i = l.length ∧ x = a) := by
  induction l generalizing i with
  | nil =>
    cases i with
    | zero =>
      right
      refine ⟨rfl, ?_⟩
      cases h
      rfl
    | succ n => simp [nth] at h
  | cons b t ih =>
    cases i with
    | zero => exact Or.inl ⟨Nat.zero_lt_succ _, h⟩
    | succ n =>
      rcases ih n h with ⟨hlt, hg⟩ | ⟨heq, hx⟩
      · exact Or.inl ⟨Nat.succ_lt_succ hlt, hg⟩
      · exact Or.inr ⟨by simp [heq], hx⟩

theorem nth_set_self {α : Type} (l : List α) (i : Nat) (a : α)
    (h : i < l.length) : nth (l.set i a) i = some a := by
  induction l generalizing i with
  | nil => simp at h
  | cons b t ih =>
    cases i with
    | zero => rfl
    | succ n => exact ih n (Nat.lt_of_succ_lt_succ h)

theorem nth_set_other {α : Type} (l : List α) (i j : Nat) (a : α)
    (h : i ≠ j) : nth (l.set i a) j = nth l j := by
  induction l generalizing i j with
  | nil => simp
  | cons b t ih =>
    cases i with
    | zero =>
      cases j with
      | zero => exact absurd rfl h
      | succ m => rfl
    | succ n =>
      cases j with
      | zero => rfl
      | succ m => exact ih n m (fun he => h (by rw [he]))

theorem alookup_none_not_key {β : Type} (l : List (Query × β)) (q : Query)
    (h : alookup l q = none) : ∀ v : β, (q, v) ∉ l := by
  induction l with
  | nil => simp
  | cons p t ih =>
    intro v hv
    simp only [alookup] at h
    by_cases hk : p.1 = q
    · simp [hk] at h
    · rcases List.mem_cons.mp hv with he | hm
      · exact hk (by rw [← he])
      · exact ih (by simpa [hk] using h) v hm

theorem alookup_none_not_fst {β : Type} (l : List (Query × β)) (q : Query)
    (h : alookup l q = none) : q ∉ l.map Prod.fst := by
  intro hmem
  rcases List.mem_map.mp hmem with ⟨p, hp, hfst⟩
  apply alookup_none_not_key l q h p.2
  have hp2 : (p.1, p.2) ∈ l := by simpa using hp
  rwa [hfst] at hp2

theorem keys_nodup_unique {β : Type} {l : List (Query × β)} {q : Query} {a b : β}
    (hnd : (l.map Prod.fst).Nodup) (ha : (q, a) ∈ l) (hb : (q, b) ∈ l) : a = b := by
  induction l with
  | nil => simp at ha
  | cons p t ih =>
    simp only [List.map, List.nodup_cons] at hnd
    rcases List.mem_cons.mp ha with hea | hma
    · rcases List.mem_cons.mp hb with heb | hmb
      · simpa using hea.trans heb.symm
      · exfalso
        apply hnd.1
        apply List.mem_map.mpr
        refine ⟨(q, b), hmb, ?_⟩
        rw [← hea]
    · rcases List.mem_cons.mp hb with heb | hmb
      · exfalso
        apply hnd.1
        apply List.mem_map.mpr
        refine ⟨(q, a), hma, ?_⟩
        rw [← heb]
      · exact ih hnd.2 hma hmb

theorem mem_aerase {β : Type} (l : List (Query × β)) (x q : Query) (v : β) :
    (q, v) ∈ aerase l x ↔ (q, v) ∈ l ∧ q ≠ x := by
  simp [aerase, List.mem_filter]

theorem aerase_keys_nodup {β : Type} (l : List (Query × β)) (x : Query)
    (h : (l.map Prod.fst).Nodup) : ((aerase l x).map Prod.fst).Nodup := by
  apply List.Nodup.sublist _ h
  exact List.Sublist.map Prod.fst (List.filter_sublist l)

/-! ## The pending-map consistency invariant -/

/-- Request i is an in-flight (unsettled) upstream call for query q. -/
def InFlightAt (s : CacheState) (i : Nat) (q : Query) : Prop :=
  ∃ rq, nth s.reqs i = some rq ∧ rq.q = q ∧ rq.settled = none

/-- The pending map is an exact registry of in-flight requests: every
entry points at an in-flight request for its key, every in-flight
request is registered under its query, and keys are unique. -/
def PendingConsistent (s : CacheState) : Prop :=
  (∀ q i, (q, i) ∈ s.pending → InFlightAt s i q)
  ∧ (∀ i rq, nth s.reqs i = some rq → rq.settled = none → (rq.q, i) ∈ s.pending)
  ∧ (s.pending.map Prod.fst).Nodup

/-- At every instant there is at most one outstanding upstream call per
distinct query. -/
def AtMostOnePerQuery (s : CacheState) : Prop :=
  ∀ i j q, InFlightAt s i q → InFlightAt s j q → i = j

theorem pc_implies_amo (s : CacheState) (hpc : PendingConsistent s) :
    AtMostOnePerQuery s := by
  rintro i j q ⟨ri, hgi, hqi, hsi⟩ ⟨rj, hgj, hqj, hsj⟩
  have h1 := hpc.2.1 i ri hgi hsi
  have h2 := hpc.2.1 j rj hgj hsj
  rw [hqi] at h1
  rw [hqj] at h2
  exact keys_nodup_unique hpc.2.2 h1 h2

theorem step_preserves_pc (up : Query → UpRes) (s s' : CacheState) (a : Act)
    (h : step up s a = some s') (hpc : PendingConsistent s) :
    PendingConsistent s' := by
  cases a with
  | issue c =>
    simp only [step] at h
    cases hcl : nth s.callers c with
    | none => rw [hcl] at h; exact Option.noConfusion h
    | some cl =>
      rw [hcl] at h
      simp only at h
      cases hph : cl.phase with
      | idle =>
        rw [hph] at h
        simp only at h
        cases hab : sigIsAborted s cl.sig <;> rw [hab] at h <;> (cases h; exact hpc)
      | awaitingGet => rw [hph] at h; exact Option.noConfusion h
      | joined r => rw [hph] at h; exact Option.noConfusion h
      | done o => rw [hph] at h; exact Option.noConfusion h
  | getOk c =>
    simp only [step] at h
    cases hcl : nth s.callers c with
    | none => rw [hcl] at h; exact Option.noConfusion h
    | some cl =>
      rw [hcl] at h
      simp only at h
      cases hph : cl.phase with
      | idle => rw [hph] at h; exact Option.noConfusion h
      | joined r => rw [hph] at h; exact Option.noConfusion h
      | done o => rw [hph] at h; exact Option.noConfusion h
      | awaitingGet =>
        rw [hph] at h
        simp only at h
        cases hsv : alookup s.store cl.q with
        | some sv =>
          rw [hsv] at h
          cases sv <;> (cases h; exact hpc)
        | none =>
          rw [hsv] at h
          simp only at h
          cases hpd : alookup s.pending cl.q with
          | some r =>
            rw [hpd] at h
            cases h
            exact hpc
          | none =>
            rw [hpd] at h
            cases h
            obtain ⟨hp1, hp2, hp3⟩ := hpc
            refine ⟨?_, ?_, ?_⟩
            · intro q i hmem
              have hmem' : (q, i) ∈ (cl.q, s.reqs.length) :: s.pending := hmem
              rcases List.mem_cons.mp hmem' with he | hm
              · have hq : q = cl.q := congrArg Prod.fst he
                have hi : i = s.reqs.length := congrArg Prod.snd he
                refine ⟨({ q := cl.q, sig := cl.sig, settled := none } : UpReq),
                  ?_, by simp [hq], rfl⟩
                show nth (s.reqs ++ [({ q := cl.q, sig := cl.sig, settled := none } : UpReq)]) i
                  = some ({ q := cl.q, sig := cl.sig, settled := none } : UpReq)
                rw [hi]
                exact nth_concat_length _ _
              · obtain ⟨rq2, hg2, hq2, hs2⟩ := hp1 q i hm
                refine ⟨rq2, ?_, hq2, hs2⟩
                show nth (s.reqs ++ [({ q := cl.q, sig := cl.sig, settled := none } : UpReq)]) i
                  = some rq2
                rw [nth_append_left _ _ _ (nth_lt_length _ _ _ hg2)]
                exact hg2
            · intro i rq2 hg2 hs2
              have hg2' :
                  nth (s.reqs ++ [({ q := cl.q, sig := cl.sig, settled := none } : UpReq)]) i
                  = some rq2 := hg2
              rcases nth_append_cases _ _ _ _ hg2' with ⟨hlt, hg0⟩ | ⟨hi, hx⟩
              · exact List.mem_cons_of_mem _ (hp2 i rq2 hg0 hs2)
              · apply List.mem_cons.mpr
                left
                rw [hx, hi]
            · have hkey : cl.q ∉ s.pending.map Prod.fst := alookup_none_not_fst _ _ hpd
              exact List.nodup_cons.mpr ⟨hkey, hp3⟩
  | getFail c msg =>
    simp only [step] at h
    cases hcl : nth s.callers c with
    | none => rw [hcl] at h; exact Option.noConfusion h
    | some cl =>
      rw [hcl] at h
      simp only at h
      cases hph : cl.phase with
      | awaitingGet => rw [hph] at h; cases h; exact hpc
      | idle => rw [hph] at h; exact Option.noConfusion h
      | joined r => rw [hph] at h; exact Option.noConfusion h
      | done o => rw [hph] at h; exact Option.noConfusion h
  | settle r =>
    simp only [step] at h
    cases hrq : nth s.reqs r with
    | none => rw [hrq] at h; exact Option.noConfusion h
    | some rq =>
      rw [hrq] at h
      simp only at h
      cases hst : rq.settled with
      | some o => rw [hst] at h; exact Option.noConfusion h
      | none =>
        rw [hst] at h
        cases h
        obtain ⟨hp1, hp2, hp3⟩ := hpc
        refine ⟨?_, ?_, ?_⟩
        · intro q i hmem
          have hm := (mem_aerase s.pending rq.q q i).mp hmem
          obtain ⟨rq2, hg2, hq2, hs2⟩ := hp1 q i hm.1
          by_cases hir : i = r
          · exfalso
            rw [hir, hrq] at hg2
            cases hg2
            exact hm.2 hq2.symm
          · refine ⟨rq2, ?_, hq2, hs2⟩
            show nth (s.reqs.set r { rq with settled := some (up rq.q) }) i = some rq2
            rw [nth_set_other _ _ _ _ (fun he => hir he.symm)]
            exact hg2
        · intro i rq2 hg2 hs2
          by_cases hir : i = r
          · exfalso
            have hg2' : nth (s.reqs.set r { rq with settled := some (up rq.q) }) i
                = some rq2 := hg2
            rw [hir, nth_set_self _ _ _ (nth_lt_length _ _ _ hrq)] at hg2'
            cases hg2'
            simp at hs2
          · have hg2' : nth s.reqs i = some rq2 := by
              rw [← nth_set_other s.reqs r i { rq with settled := some (up rq.q) }
                (fun he => hir he.symm)]
              exact hg2
            have hmem := hp2 i rq2 hg2' hs2
            apply (mem_aerase _ _ _ _).mpr
            refine ⟨hmem, ?_⟩
            intro hqq
            have hmem2 := hp2 r rq hrq hst
            rw [hqq] at hmem
            exact hir (keys_nodup_unique hp3 hmem hmem2)
        · exact aerase_keys_nodup _ _ hp3
  | writeOk w =>
    simp only [step] at h
    cases hw : nth s.writes w with
    | none => rw [hw] at h; exact Option.noConfusion h
    | some pw => rw [hw] at h; cases h; exact hpc
  | writeFail w =>
    simp only [step] at h
    cases hw : nth s.writes w with
    | none => rw [hw] at h; exact Option.noConfusion h
    | some pw => rw [hw] at h; cases h; exact hpc
  | deliver c =>
    simp only [step] at h
    cases hcl : nth s.callers c with
    | none => rw [hcl] at h; exact Option.noConfusion h
    | some cl =>
      rw [hcl] at h
      simp only at h
      cases hph : cl.phase with
      | idle => rw [hph] at h; exact Option.noConfusion h
      | awaitingGet => rw [hph] at h; exact Option.noConfusion h
      | done o => rw [hph] at h; exact Option.noConfusion h
      | joined r =>
        rw [hph] at h
        simp only at h
        cases hrq : nth s.reqs r with
        | none => rw [hrq] at h; exact Option.noConfusion h
        | some rq =>
          rw [hrq] at h
          simp only at h
          cases hst : rq.settled with
          | none => rw [hst] at h; exact Option.noConfusion h
          | some out => rw [hst] at h; cases h; exact hpc
  | abortSig sg =>
    simp only [step] at h
    cases h
    exact hpc

theorem stepOr_preserves_pc (up : Query → UpRes) (s : CacheState) (a : Act)
    (hpc : PendingConsistent s) : PendingConsistent (stepOr up s a) := by
  unfold stepOr
  cases hs : step up s a with
  | none => simpa using hpc
  | some s2 => simpa using step_preserves_pc up s s2 a hs hpc

theorem foldl_preserves_pc (up : Query → UpRes) (acts : List Act)
    (s : CacheState) (hpc : PendingConsistent s) :
    PendingConsistent (acts.foldl (stepOr up) s) := by
  induction acts generalizing s with
  | nil => exact hpc
  | cons a t ih => exact ih _ (stepOr_preserves_pc up s a hpc)

theorem initState_pc (cs : List (Query × Option Nat)) :
    PendingConsistent (initState cs) := by
  refine ⟨?_, ?_, ?_⟩ <;> simp [initState, InFlightAt]

theorem run_pc (up : Query → UpRes) (cs : List (Query × Option Nat))
    (acts : List Act) : PendingConsistent (run up cs acts) :=
  foldl_preserves_pc up acts _ (initState_pc cs)

end Geocoder

namespace Geocoder

/-! ## Enumeration lemmas -/

theorem nth_map {α β : Type} (f : α → β) (l : List α) :
    ∀ i, nth (l.map f) i = (nth l i).map f := by
  induction l with
  | nil => intro i; rfl
  | cons a t ih =>
    intro i
    cases i with
    | zero => rfl
    | succ m => exact ih m

theorem nth_enumFromIdx {α : Type} (l : List α) :
    ∀ n i, nth (enumFromIdx n l) i = (nth l i).map (fun a => (n + i, a)) := by
  induction l with
  | nil => intro n i; rfl
  | cons x t ih =>
    intro n i
    cases i with
    | zero => rfl
    | succ m =>
      show nth (enumFromIdx (n + 1) t) m = (nth t m).map (fun a => (n + (m + 1), a))
      rw [ih (n + 1) m]
      have he : (n + 1) + m = n + (m + 1) := by omega
      rw [he]

theorem enumFromIdx_mem_nth {α : Type} (l : List α) :
    ∀ n i a, (i, a) ∈ enumFromIdx n l → ∃ k, i = n + k ∧ nth l k = some a := by
  induction l with
  | nil => intro n i a h; simp [enumFromIdx] at h
  | cons x t ih =>
    intro n i a h
    rcases List.mem_cons.mp h with he | hm
    · refine ⟨0, ?_, ?_⟩
      · have : i = n := congrArg Prod.fst he
        omega
      · have hax : a = x := congrArg Prod.snd he
        rw [hax]
        rfl
    · obtain ⟨k, hk, hnth⟩ := ih (n + 1) i a hm
      exact ⟨k + 1, by omega, hnth⟩

theorem nth_mem_enumFromIdx {α : Type} (l : List α) :
    ∀ n k a, nth l k = some a → (n + k, a) ∈ enumFromIdx n l := by
  induction l with
  | nil => intro n k a h; simp at h
  | cons x t ih =>
    intro n k a h
    cases k with
    | zero =>
      cases h
      exact List.mem_cons_self _ _
    | succ m =>
      have he : n + (m + 1) = (n + 1) + m := by omega
      rw [he]
      exact List.mem_cons_of_mem _ (ih (n + 1) m a h)

theorem enumFromIdx_fst_ge {α : Type} (l : List α) :
    ∀ n x, x ∈ enumFromIdx n l → n ≤ x.1 := by
  induction l with
  | nil => intro n x h; simp [enumFromIdx] at h
  | cons a t ih =>
    intro n x h
    rcases List.mem_cons.mp h with he | hm
    · rw [he]
    · exact Nat.le_of_succ_le (ih (n + 1) x hm)

theorem enumFromIdx_pairwise {α : Type} (l : List α) :
    ∀ n, (enumFromIdx n l).Pairwise (fun x y => x.1 < y.1) := by
  induction l with
  | nil => intro n; simp [enumFromIdx]
  | cons a t ih =>
    intro n
    apply List.pairwise_cons.mpr
    refine ⟨?_, ih (n + 1)⟩
    intro y hy
    exact Nat.lt_of_succ_le (enumFromIdx_fst_ge t (n + 1) y hy)

theorem enumFromIdx_map_snd {α : Type} (l : List α) :
    ∀ n, (enumFromIdx n l).map Prod.snd = l := by
  induction l with
  | nil => intro n; rfl
  | cons x t ih =>
    intro n
    show x :: (enumFromIdx (n + 1) t).map Prod.snd = x :: t
    rw [ih (n + 1)]

theorem enumFromIdx_filter_ne_small {α : Type} (l : List α) :
    ∀ n k, k < n → (enumFromIdx n l).filter (fun p => p.1 ≠ k) = enumFromIdx n l := by
  induction l with
  | nil => intro n k _; rfl
  | cons x t ih =>
    intro n k hk
    have hcond : decide (((n, x).1 : Nat) ≠ k) = true := decide_eq_true (by omega)
    show List.filter (fun p => decide (p.1 ≠ k)) ((n, x) :: enumFromIdx (n + 1) t)
      = (n, x) :: enumFromIdx (n + 1) t
    rw [List.filter_cons, hcond, if_pos rfl]
    rw [ih (n + 1) k (by omega)]

theorem enumFromIdx_filter_map {α : Type} (l : List α) :
    ∀ n i, ((enumFromIdx n l).filter (fun p => p.1 ≠ (n + i))).map Prod.snd
      = l.take i ++ l.drop (i + 1) := by
  induction l with
  | nil => intro n i; simp [enumFromIdx]
  | cons x t ih =>
    intro n i
    cases i with
    | zero =>
      have hcond : decide (((n, x).1 : Nat) ≠ n + 0) = false := by simp
      show (List.filter (fun p => decide (p.1 ≠ n + 0))
        ((n, x) :: enumFromIdx (n + 1) t)).map Prod.snd = _
      rw [List.filter_cons, hcond, if_neg Bool.false_ne_true]
      rw [enumFromIdx_filter_ne_small t (n + 1) (n + 0) (by omega)]
      rw [enumFromIdx_map_snd t (n + 1)]
      simp
    | succ m =>
      have hcond : decide (((n, x).1 : Nat) ≠ n + (m + 1)) = true :=
        decide_eq_true (by omega)
      show (List.filter (fun p => decide (p.1 ≠ n + (m + 1)))
        ((n, x) :: enumFromIdx (n + 1) t)).map Prod.snd = _
      rw [List.filter_cons, hcond, if_pos rfl]
      show x :: (List.filter (fun p => decide (p.1 ≠ n + (m + 1)))
        (enumFromIdx (n + 1) t)).map Prod.snd = _
      have he : n + (m + 1) = (n + 1) + m := by omega
      rw [he, ih (n + 1) m]
      rfl

/-! ## Selection lemmas (first-seen minimum) -/

theorem selectFrom_spec (rest : List (Nat × Provider)) :
    ∀ b : Nat × Provider, ((b :: rest).Pairwise (fun x y => x.1 < y.1)) →
      (selectFrom b rest = b ∨ selectFrom b rest ∈ rest)
      ∧ (∀ c ∈ b :: rest, load (selectFrom b rest).2 ≤ load c.2)
      ∧ (∀ c ∈ b :: rest, c.1 < (selectFrom b rest).1 → load (selectFrom b rest).2 < load c.2) := by
  induction rest with
  | nil =>
    intro b _
    refine ⟨Or.inl rfl, ?_, ?_⟩
    · intro c hc
      rcases List.mem_singleton.mp hc with rfl
      exact Nat.le_refl _
    · intro c hc hlt
      rcases List.mem_singleton.mp hc with rfl
      exact absurd hlt (Nat.lt_irrefl _)
  | cons c t ih =>
    intro b hp
    have hbc : b.1 < c.1 := (List.pairwise_cons.mp hp).1 c (List.mem_cons_self c t)
    have hbt : ∀ x ∈ t, b.1 < x.1 := fun x hx =>
      (List.pairwise_cons.mp hp).1 x (List.mem_cons_of_mem c hx)
    have hct : ∀ x ∈ t, c.1 < x.1 := fun x hx =>
      (List.pairwise_cons.mp ((List.pairwise_cons.mp hp).2)).1 x hx
    have hpt : t.Pairwise (fun x y => x.1 < y.1) :=
      (List.pairwise_cons.mp ((List.pairwise_cons.mp hp).2)).2
    by_cases hlb : load c.2 < load b.2
    · have hsel2 : selectFrom b (c :: t) = selectFrom c t := by
        show selectFrom (if load c.2 < load b.2 then c else b) t = selectFrom c t
        rw [if_pos hlb]
      have hpc2 : (c :: t).Pairwise (fun x y => x.1 < y.1) :=
        List.pairwise_cons.mpr ⟨hct, hpt⟩
      obtain ⟨ihm, ihmin, ihfirst⟩ := ih c hpc2
      rw [hsel2]
      refine ⟨?_, ?_, ?_⟩
      · rcases ihm with he | hm
        · exact Or.inr (List.mem_cons.mpr (Or.inl he))
        · exact Or.inr (List.mem_cons.mpr (Or.inr hm))
      · intro e he
        rcases List.mem_cons.mp he with rfl | he2
        · exact Nat.le_of_lt (Nat.lt_of_le_of_lt (ihmin c (List.mem_cons_self c t)) hlb)
        · exact ihmin e he2
      · intro e he hlt
        rcases List.mem_cons.mp he with rfl | he2
        · exact Nat.lt_of_le_of_lt (ihmin c (List.mem_cons_self c t)) hlb
        · exact ihfirst e he2 hlt
    · have hsel2 : selectFrom b (c :: t) = selectFrom b t := by
        show selectFrom (if load c.2 < load b.2 then c else b) t = selectFrom b t
        rw [if_neg hlb]
      have hcb : load b.2 ≤ load c.2 := Nat.le_of_not_lt hlb
      have hpb2 : (b :: t).Pairwise (fun x y => x.1 < y.1) :=
        List.pairwise_cons.mpr ⟨hbt, hpt⟩
      obtain ⟨ihm, ihmin, ihfirst⟩ := ih b hpb2
      rw [hsel2]
      refine ⟨?_, ?_, ?_⟩
      · rcases ihm with he | hm
        · exact Or.inl he
        · exact Or.inr (List.mem_cons.mpr (Or.inr hm))
      · intro e he
        rcases List.mem_cons.mp he with rfl | he2
        · exact ihmin e (List.mem_cons_self e t)
        · rcases List.mem_cons.mp he2 with rfl | he3
          · exact Nat.le_trans (ihmin b (List.mem_cons_self b t)) hcb
          · exact ihmin e (List.mem_cons_of_mem b he3)
      · intro e he hlt
        rcases List.mem_cons.mp he with rfl | he2
        · exact ihfirst e (List.mem_cons_self e t) hlt
        · rcases List.mem_cons.mp he2 with rfl | he3
          · rcases ihm with hre | hrt
            · rw [hre] at hlt
              exact absurd (Nat.lt_trans hlt hbc) (Nat.lt_irrefl _)
            · have hb1 : b.1 < (selectFrom b t).1 := hbt _ hrt
              exact Nat.lt_of_lt_of_le (ihfirst b (List.mem_cons_self b t) hb1) hcb
          · exact ihfirst e (List.mem_cons_of_mem b he3) hlt

theorem select_spec (ps : List Provider) (i : Nat) (p : Provider)
    (h : select ps = some (i, p)) :
    nth ps i = some p
    ∧ (∀ j q, nth ps j = some q → load p ≤ load q)
    ∧ (∀ j q, nth ps j = some q → j < i → load p < load q) := by
  unfold select at h
  cases he : enumFromIdx 0 ps with
  | nil => rw [he] at h; exact Option.noConfusion h
  | cons b rest =>
    rw [he] at h
    simp only at h
    injection h with h2
    have hp : (b :: rest).Pairwise (fun x y => x.1 < y.1) := by
      rw [← he]
      exact enumFromIdx_pairwise ps 0
    obtain ⟨hm, hmin, hfirst⟩ := selectFrom_spec rest b hp
    have hmem : selectFrom b rest ∈ enumFromIdx 0 ps := by
      rw [he]
      rcases hm with hmb | hmr
      · exact List.mem_cons.mpr (Or.inl hmb)
      · exact List.mem_cons.mpr (Or.inr hmr)
    rw [h2] at hmem
    obtain ⟨k, hk, hnth⟩ := enumFromIdx_mem_nth ps 0 i p hmem
    have hki : k = i := by omega
    rw [hki] at hnth
    refine ⟨hnth, ?_, ?_⟩
    · intro j q hj
      have hjq : (0 + j, q) ∈ enumFromIdx 0 ps := nth_mem_enumFromIdx ps 0 j q hj
      rw [he] at hjq
      have := hmin (0 + j, q) hjq
      rw [h2] at this
      exact this
    · intro j q hj hji
      have hjq : (0 + j, q) ∈ enumFromIdx 0 ps := nth_mem_enumFromIdx ps 0 j q hj
      rw [he] at hjq
      have hlt : (0 + j, q).1 < (selectFrom b rest).1 := by
        rw [h2]
        show 0 + j < i
        omega
      have := hfirst (0 + j, q) hjq hlt
      rw [h2] at this
      exact this

end Geocoder

namespace Geocoder

theorem lbProviders_nth {α : Type} (gs : List α) (i : Nat) (g : α)
    (h : nth gs i = some g) :
    nth (lbProviders gs) i
      = some ((gs.take i ++ gs.drop (i + 1)).foldl
          (fun mem geo => .fb mem (.base geo)) (.base g)) := by
  unfold lbProviders
  rw [nth_map, nth_enumFromIdx, h]
  show some (lbWrap gs (0 + i) g) = _
  unfold lbWrap
  rw [enumFromIdx_filter_map gs 0 i]

/-! ## Concrete fixtures for counterexamples and witnesses -/

/-- A concrete Address, as a provider adapter would produce it. -/
def addrBR : Address :=
  { source := "brazil", name := "Brazil", type := "country", confidence := 1,
    country := some "Brazil", country_code := some "BR" }

/-- Upstream geocoder that resolves every query with addrBR. -/
def upAddr : Query → UpRes := fun _ => .ok (some addrBR)

/-- Upstream geocoder that resolves every query with null (not found). -/
def upNull : Query → UpRes := fun _ => .ok none

/-- Wrapped provider chain resolving every query with null. -/
def geoNone : Nat → Query → UpRes := fun _ _ => .ok none

/-- Two callers of the same query, no abort signals. -/
def dedupCallers : List (Query × Option Nat) := [("brazil", none), ("brazil", none)]

/-- Both callers issue before request 0 settles; the second caller's
cache read resolves after the settle and before the fire-and-forget
write lands, so a second upstream request starts. -/
def dedupTrace : List Act := [.issue 0, .getOk 0, .issue 1, .settle 0, .getOk 1]

/-- State after both callers issued and the first started the upstream
call (request 0 still in flight). -/
def dedupMidState : CacheState := run upAddr dedupCallers (dedupTrace.take 3)

/-- State after request 0 settled (caller 0 joined on it). -/
def dedupSettledState : CacheState := run upAddr dedupCallers (dedupTrace.take 4)

/-- Two sequential callers of a query the upstream cannot resolve. -/
def negCallers : List (Query × Option Nat) := [("nowhere", none), ("nowhere", none)]

/-- First call completes including its negative cache write; then the
second call runs and hits the sentinel. -/
def negTrace : List Act :=
  [.issue 0, .getOk 0, .settle 0, .deliver 0, .writeOk 0, .issue 1, .getOk 1]

/-- A single caller whose cache read will fail. -/
def readCallers : List (Query × Option Nat) := [("y", none)]

/-- The cache read rejects with a storage error. -/
def readTrace : List Act := [.issue 0, .getFail 0 "disk"]

/-- One caller carrying abort signal 0. -/
def abortRunCallers : List (Query × Option Nat) := [("q", some 0)]

/-- The signal fires after the upstream call started and before it
settles; the caller then awaits the shared promise. -/
def abortRunTrace : List Act := [.issue 0, .getOk 0, .abortSig 0, .settle 0, .deliver 0]

/-- State with request 0 in flight and signal 0 already aborted. -/
def abortMidState : CacheState := run upAddr abortRunCallers (abortRunTrace.take 3)

/-- State after request 0 settled with the signal aborted. -/
def abortSettledState : CacheState := run upAddr abortRunCallers (abortRunTrace.take 4)

/-- State holding one pending fire-and-forget write. -/
def writePendingState : CacheState :=
  run upAddr [("w", none)] [.issue 0, .getOk 0, .settle 0]

/-- State with one caller awaiting its cache read. -/
def awaitGetState : CacheState := run upAddr readCallers [.issue 0]

/-- One saturated provider: load 3. -/
def fullProviders : List Provider := [{ queueSize := 2, pendingCount := 1 }]

/-- Three providers with loads 2, 1, 1: the first minimum sits at
index 1. -/
def tieProviders : List Provider :=
  [{ queueSize := 1, pendingCount := 1 }, { queueSize := 0, pendingCount := 1 },
   { queueSize := 1, pendingCount := 0 }]

/-- Primary geocoder that always throws. -/
def primThrow : Query → Option Bool → UpRes := fun _ _ => .error (.providerErr "boom")

/-- Primary geocoder that always resolves null. -/
def primNull : Query → Option Bool → UpRes := fun _ _ => .ok none

/-- Secondary geocoder that always resolves with addrBR. -/
def secOk : Query → Option Bool → UpRes := fun _ _ => .ok (some addrBR)

end Geocoder

namespace Geocoder

/-! ## Claim theorems -/

/-- C1 counterexample: two callers of the byte-identical query both
issue before the first upstream request settles (after the third action
both callers have left idle and exactly one unsettled request exists),
yet the full schedule ends with two upstream requests for that query:
the second caller's cache read resolves after the settle has deleted the
pending entry and before the fire-and-forget write lands, so it misses
both and starts a second upstream call.  The upstream geocoder is
therefore not invoked exactly once. -/
theorem cache_dedup_exactly_once_cex :
    (dedupMidState.callers.all (fun cl => cl.phase != .idle)) = true
    ∧ dedupMidState.reqs.length = 1
    ∧ (dedupMidState.reqs.all (fun rq => rq.settled == none)) = true
    ∧ (run upAddr dedupCallers dedupTrace).reqs.length = 2
    ∧ ((run upAddr dedupCallers dedupTrace).reqs.all (fun rq => rq.q == "brazil")) = true := by
  decide

/-- C1 (amended): at every reachable state there is at most one
outstanding upstream call per distinct query; a caller whose cache read
resolves while an identical query is pending joins the existing request
without a new upstream invocation; and every caller awaiting a settled
request is delivered the same outcome, determined by that settlement.
The exactly-once guarantee holds for callers that reach the pending-map
check before the first request settles, but not for callers that merely
issue before it settles (see the counterexample). -/
theorem cache_dedup_amended (up : Query → UpRes) :
    (∀ cs acts, AtMostOnePerQuery (run up cs acts))
    ∧ (∀ s c cl r, nth s.callers c = some cl → cl.phase = .awaitingGet →
        alookup s.store cl.q = none → alookup s.pending cl.q = some r →
        (stepOr up s (.getOk c)).reqs = s.reqs
        ∧ (stepOr up s (.getOk c)).callers
            = s.callers.set c { cl with phase := .joined r })
    ∧ (∀ s c cl r rq out, nth s.callers c = some cl → cl.phase = .joined r →
        nth s.reqs r = some rq → rq.settled = some out →
        (stepOr up s (.deliver c)).callers
          = s.callers.set c { cl with phase := .done (deliverOutcome out) }) := by
  refine ⟨?_, ?_, ?_⟩
  · intro cs acts
    exact pc_implies_amo _ (run_pc up cs acts)
  · intro s c cl r hcl hph hsv hpd
    have hstep : step up s (.getOk c)
        = some { s with callers := s.callers.set c { cl with phase := .joined r } } := by
      simp only [step]
      rw [hcl]
      simp only
      rw [hph]
      simp only
      rw [hsv]
      simp only
      rw [hpd]
    unfold stepOr
    rw [hstep]
    exact ⟨rfl, rfl⟩
  · intro s c cl r rq out hcl hph hrq hst
    have hstep : step up s (.deliver c)
        = some { s with callers :=
            s.callers.set c { cl with phase := .done (deliverOutcome out) } } := by
      simp only [step]
      rw [hcl]
      simp only
      rw [hph]
      simp only
      rw [hrq]
      simp only
      rw [hst]
    unfold stepOr
    rw [hstep]
    rfl

/-- C1 witness: the amended theorem applied at concrete inputs.  At most
one request is in flight after the racing schedule; at the mid state the
second caller would join request 0 had its read resolved in time; at the
settled state delivery hands caller 0 the settled outcome. -/
theorem cache_dedup_amended_witness :
    (1 : Nat) = 1
    ∧ ((stepOr upAddr dedupMidState (.getOk 1)).reqs = dedupMidState.reqs
        ∧ (stepOr upAddr dedupMidState (.getOk 1)).callers
            = dedupMidState.callers.set 1
                { q := "brazil", sig := none, phase := .joined 0 })
    ∧ (stepOr upAddr dedupSettledState (.deliver 0)).callers
        = dedupSettledState.callers.set 0
            { q := "brazil", sig := none, phase := .done (.ok (.addr addrBR)) } := by
  refine ⟨?_, ?_, ?_⟩
  · exact (cache_dedup_amended upAddr).1 dedupCallers dedupTrace 1 1 "brazil"
      ⟨{ q := "brazil", sig := none, settled := none }, by decide, rfl, rfl⟩
      ⟨{ q := "brazil", sig := none, settled := none }, by decide, rfl, rfl⟩
  · exact (cache_dedup_amended upAddr).2.1 dedupMidState 1
      { q := "brazil", sig := none, phase := .awaitingGet } 0
      (by decide) rfl (by decide) (by decide)
  · exact (cache_dedup_amended upAddr).2.2 dedupSettledState 0
      { q := "brazil", sig := none, phase := .joined 0 } 0
      { q := "brazil", sig := none, settled := some (.ok (some addrBR)) }
      (.ok (some addrBR)) (by decide) rfl (by decide) (by decide)

/-- C2 (code bug evaluated): the first search of a query the upstream
resolves as not-found returns null and stores the negative sentinel
exactly once; the immediately following search of the same query hits
the sentinel and, without delegating upstream (still one request in
total), resolves with the JS value false rather than null, because
cached ?? null does not coalesce false. -/
theorem negative_sentinel_leaks_false :
    nth (run upNull negCallers negTrace).callers 0
      = some { q := "nowhere", sig := none, phase := .done (.ok .nullv) }
    ∧ nth (run upNull negCallers negTrace).callers 1
      = some { q := "nowhere", sig := none, phase := .done (.ok .falsev) }
    ∧ (run upNull negCallers negTrace).reqs.length = 1
    ∧ alookup (run upNull negCallers negTrace).store "nowhere" = some .sFalse := by
  decide

/-- C3 counterexample: when the primary rejects, Fallback.search rejects
with that same error and the secondary is invoked zero times, not once:
the promise chain has no rejection handler. -/
theorem fallback_error_propagates_cex :
    fallbackSearch primThrow secOk "berlin" none
      = (.error (.providerErr "boom"), 1, 0) := by
  decide

/-- C3 (amended): Fallback.search calls the primary exactly once; a
non-null primary Address is returned with the secondary untouched; a
null primary result invokes the secondary exactly once and returns its
outcome; a primary rejection propagates unchanged to the caller and the
secondary is not invoked. -/
theorem fallback_spec (primary secondary : Query → Option Bool → UpRes)
    (q : Query) (opts : Option Bool) :
    (∀ a, primary q opts = .ok (some a) →
      fallbackSearch primary secondary q opts = (.ok (some a), 1, 0))
    ∧ (primary q opts = .ok none →
      fallbackSearch primary secondary q opts = (secondary q opts, 1, 1))
    ∧ (∀ e, primary q opts = .error e →
      fallbackSearch primary secondary q opts = (.error e, 1, 0)) := by
  refine ⟨?_, ?_, ?_⟩
  · intro a h
    unfold fallbackSearch
    rw [h]
  · intro h
    unfold fallbackSearch
    rw [h]
  · intro e h
    unfold fallbackSearch
    rw [h]

/-- C3 witness: the amended theorem applied to the three concrete
primary behaviours. -/
theorem fallback_spec_witness :
    fallbackSearch secOk secOk "x" none = (.ok (some addrBR), 1, 0)
    ∧ fallbackSearch primNull secOk "x" none = (.ok (some addrBR), 1, 1)
    ∧ fallbackSearch primThrow secOk "x" none
        = (.error (.providerErr "boom"), 1, 0) := by
  refine ⟨?_, ?_, ?_⟩
  · exact (fallback_spec secOk secOk "x" none).1 addrBR rfl
  · have h := (fallback_spec primNull secOk "x" none).2.1 rfl
    simpa using h
  · exact (fallback_spec primThrow secOk "x" none).2.2 (.providerErr "boom") rfl

/-- C4: when the selected provider already has load at or above the
configured maximum queue size, LoadBalancer.search fails immediately
with the queue-full error (a plain Error carrying the queue-full
message, the QueueFullError of the error taxonomy), enqueues nothing,
invokes no provider, counts the rejection, and performs no retry. -/
theorem lb_queue_full_reject (ps : List Provider) (geo : Nat → Query → UpRes)
    (maxQ : Nat) (q : Query) (sigA : Option Bool) (i : Nat) (p : Provider)
    (hsel : select ps = some (i, p)) (hfull : maxQ ≤ load p) :
    lbSearch ps geo maxQ q sigA
      = some { outcome := .error (.jsError (queueFullMsg maxQ)),
               invoked := [], enqueuedOn := none, queueFullCount := 1 } := by
  unfold lbSearch
  rw [hsel]
  simp only
  rw [if_pos hfull]

/-- C4 witness: a single provider with load 3 against maximum 3. -/
theorem lb_queue_full_reject_witness :
    lbSearch fullProviders geoNone 3 "q" none
      = some { outcome := .error (.jsError (queueFullMsg 3)),
               invoked := [], enqueuedOn := none, queueFullCount := 1 } :=
  lb_queue_full_reject fullProviders geoNone 3 "q" none 0
    { queueSize := 2, pendingCount := 1 } (by decide) (by decide)

/-- C5: the selected provider holds the minimum load (queue size plus
pending) among all providers, every provider at a strictly earlier
index has strictly greater load (first-seen minimum wins ties), and an
admitted request (load below the maximum, no aborted signal) is
enqueued on exactly that provider and invokes exactly its chain. -/
theorem lb_routes_to_first_min (ps : List Provider) (geo : Nat → Query → UpRes)
    (maxQ : Nat) (q : Query) (i : Nat) (p : Provider)
    (hsel : select ps = some (i, p)) :
    nth ps i = some p
    ∧ (∀ j pj, nth ps j = some pj → load p ≤ load pj)
    ∧ (∀ j pj, nth ps j = some pj → j < i → load p < load pj)
    ∧ (load p < maxQ →
        lbSearch ps geo maxQ q none
          = some { outcome := geo i q, invoked := [i], enqueuedOn := some i,
                   queueFullCount := 0 }) := by
  obtain ⟨h1, h2, h3⟩ := select_spec ps i p hsel
  refine ⟨h1, h2, h3, ?_⟩
  intro hlt
  unfold lbSearch
  rw [hsel]
  simp only
  rw [if_neg (by omega)]
  rw [if_neg (by simp)]

/-- C5 witness: loads 2, 1, 1 route to index 1 (first minimum), which
beats index 0 strictly and ties index 2 by position. -/
theorem lb_routes_to_first_min_witness :
    nth tieProviders 1 = some { queueSize := 0, pendingCount := 1 }
    ∧ load { queueSize := 0, pendingCount := 1 } ≤ load { queueSize := 1, pendingCount := 0 }
    ∧ load { queueSize := 0, pendingCount := 1 } < load { queueSize := 1, pendingCount := 1 }
    ∧ lbSearch tieProviders geoNone 5 "x" none
        = some { outcome := .ok none, invoked := [1], enqueuedOn := some 1,
                 queueFullCount := 0 } := by
  have h := lb_routes_to_first_min tieProviders geoNone 5 "x" 1
    { queueSize := 0, pendingCount := 1 } (by decide)
  exact ⟨h.1, h.2.1 2 { queueSize := 1, pendingCount := 0 } (by decide),
    h.2.2.1 0 { queueSize := 1, pendingCount := 1 } (by decide) (by decide),
    h.2.2.2 (by decide)⟩

/-- C6 counterexample: a rejecting cache read is not caught by
Cache.search; the caller receives the storage error itself (and no
upstream request is made), contradicting the claim that storage read
errors are never thrown to the caller. -/
theorem cache_read_error_thrown_cex :
    nth (run upAddr readCallers readTrace).callers 0
      = some { q := "y", sig := none, phase := .done (.error (.storageErr "disk")) }
    ∧ (run upAddr readCallers readTrace).reqs.length = 0 := by
  decide

/-- C6 (amended): cache-store write errors are absorbed: a failing (or
succeeding) fire-and-forget write never changes any caller state, any
pending entry, or any upstream request, so no caller outcome depends on
it; but cache-store read errors are not caught: a rejecting read makes
that Cache.search call reject with the same storage error (without
starting an upstream request). -/
theorem cache_storage_error_semantics (up : Query → UpRes) (s : CacheState) :
    (∀ w pw, nth s.writes w = some pw →
      (stepOr up s (.writeFail w)).callers = s.callers
      ∧ (stepOr up s (.writeFail w)).reqs = s.reqs
      ∧ (stepOr up s (.writeFail w)).pending = s.pending
      ∧ (stepOr up s (.writeFail w)).store = s.store)
    ∧ (∀ w pw, nth s.writes w = some pw →
      (stepOr up s (.writeOk w)).callers = s.callers
      ∧ (stepOr up s (.writeOk w)).reqs = s.reqs
      ∧ (stepOr up s (.writeOk w)).pending = s.pending)
    ∧ (∀ c cl msg, nth s.callers c = some cl → cl.phase = .awaitingGet →
      (stepOr up s (.getFail c msg)).callers
        = s.callers.set c { cl with phase := .done (.error (.storageErr msg)) }
      ∧ (stepOr up s (.getFail c msg)).reqs = s.reqs) := by
  refine ⟨?_, ?_, ?_⟩
  · intro w pw hw
    have hstep : step up s (.writeFail w)
        = some { s with writes := s.writes.eraseIdx w } := by
      simp only [step]
      rw [hw]
    unfold stepOr
    rw [hstep]
    exact ⟨rfl, rfl, rfl, rfl⟩
  · intro w pw hw
    have hstep : step up s (.writeOk w)
        = some { s with store := (pw.q, pw.v) :: s.store,
                        writes := s.writes.eraseIdx w } := by
      simp only [step]
      rw [hw]
    unfold stepOr
    rw [hstep]
    exact ⟨rfl, rfl, rfl⟩
  · intro c cl msg hcl hph
    have hstep : step up s (.getFail c msg)
        = some { s with callers :=
            s.callers.set c { cl with phase := .done (.error (.storageErr msg)) } } := by
      simp only [step]
      rw [hcl]
      simp only
      rw [hph]
    unfold stepOr
    rw [hstep]
    exact ⟨rfl, rfl⟩

/-- C6 witness: the amended theorem applied at a state holding a
pending write and at a state with a caller awaiting its read. -/
theorem cache_storage_error_semantics_witness :
    (stepOr upAddr writePendingState (.writeFail 0)).callers
        = writePendingState.callers
    ∧ (stepOr upAddr writePendingState (.writeOk 0)).pending
        = writePendingState.pending
    ∧ (stepOr upAddr awaitGetState (.getFail 0 "disk")).reqs
        = awaitGetState.reqs := by
  refine ⟨?_, ?_, ?_⟩
  · exact ((cache_storage_error_semantics upAddr writePendingState).1 0
      { q := "w", v := .sAddr addrBR } (by decide)).1
  · exact ((cache_storage_error_semantics upAddr writePendingState).2.1 0
      { q := "w", v := .sAddr addrBR } (by decide)).2.2
  · exact ((cache_storage_error_semantics upAddr awaitGetState).2.2 0
      { q := "y", sig := none, phase := .awaitingGet } "disk"
      (by decide) rfl).2

end Geocoder

namespace Geocoder

/-- C7: an already-aborted cancellation token makes the pipeline fail
before any admission work.  Cache.search finishes that caller with
RequestAborted while touching neither the store, the pending map, the
write queue, nor the upstream requests (no cache read is awaited and no
upstream call starts); Throttler.search rejects with the abort error of
the queue without invoking the wrapped geocoder; LoadBalancer.search
never invokes any provider chain. -/
theorem cancelled_before_admission (up : Query → UpRes) :
    (∀ s c cl, nth s.callers c = some cl → cl.phase = .idle →
      sigIsAborted s cl.sig = true →
      (stepOr up s (.issue c)).callers
        = s.callers.set c { cl with phase := .done (.error (.requestAborted cl.q)) }
      ∧ (stepOr up s (.issue c)).reqs = s.reqs
      ∧ (stepOr up s (.issue c)).pending = s.pending
      ∧ (stepOr up s (.issue c)).store = s.store
      ∧ (stepOr up s (.issue c)).writes = s.writes)
    ∧ (∀ geo q, throttlerSearch geo q (some true) = (.error .pqAbort, []))
    ∧ (∀ ps geo maxQ q i p, select ps = some (i, p) →
      (lbSearch ps geo maxQ q (some true)).map LbOut.invoked = some []) := by
  refine ⟨?_, ?_, ?_⟩
  · intro s c cl hcl hph hab
    have hstep : step up s (.issue c)
        = some { s with callers :=
            s.callers.set c { cl with phase := .done (.error (.requestAborted cl.q)) } } := by
      simp only [step]
      rw [hcl]
      simp only
      rw [hph]
      simp only
      rw [hab]
      rfl
    unfold stepOr
    rw [hstep]
    exact ⟨rfl, rfl, rfl, rfl, rfl⟩
  · intro geo q
    unfold throttlerSearch
    rw [if_pos rfl]
  · intro ps geo maxQ q i p hsel
    unfold lbSearch
    rw [hsel]
    simp only
    by_cases hfull : maxQ ≤ load p
    · rw [if_pos hfull]
      rfl
    · rw [if_neg hfull]
      simp

/-- C7 witness: a caller whose signal is already aborted at issue time,
plus the Throttler and a saturated-or-not LoadBalancer at concrete
inputs. -/
theorem cancelled_before_admission_witness :
    (stepOr upAddr (run upAddr abortRunCallers [.abortSig 0]) (.issue 0)).reqs
        = (run upAddr abortRunCallers [.abortSig 0]).reqs
    ∧ throttlerSearch primThrow "x" (some true) = (.error .pqAbort, [])
    ∧ (lbSearch tieProviders geoNone 5 "x" (some true)).map LbOut.invoked
        = some [] := by
  refine ⟨?_, ?_, ?_⟩
  · exact ((cancelled_before_admission upAddr).1
      (run upAddr abortRunCallers [.abortSig 0]) 0
      { q := "q", sig := some 0, phase := .idle } (by decide) rfl (by decide)).2.1
  · exact (cancelled_before_admission upAddr).2.1 primThrow "x"
  · exact (cancelled_before_admission upAddr).2.2 tieProviders geoNone 5 "x" 1
      { queueSize := 0, pendingCount := 1 } (by decide)

/-- C8 counterexample: the signal of the initiating caller fires while
the upstream call is in flight; the call settles with an Address, the
cache write is suppressed (no pending write, nothing stored), yet the
cancelling caller does not receive RequestCancelled: it is delivered
the normal Address outcome. -/
theorem midflight_abort_not_reported_cex :
    nth (run upAddr abortRunCallers abortRunTrace).callers 0
      = some { q := "q", sig := some 0, phase := .done (.ok (.addr addrBR)) }
    ∧ (run upAddr abortRunCallers abortRunTrace).writes = []
    ∧ alookup (run upAddr abortRunCallers abortRunTrace).store "q" = none
    ∧ nth (run upAddr abortRunCallers abortRunTrace).callers 0
        ≠ some { q := "q", sig := some 0, phase := .done (.error (.requestAborted "q")) } := by
  decide

/-- C8 (amended): cancellation arriving after the upstream call started
does not abort it (the request still settles with exactly the upstream
outcome for its query) and suppresses the subsequent cache write; but
the decorator does not report RequestCancelled to the cancelling
caller: every caller awaiting the shared promise, the canceller
included, is delivered the normal settled outcome.  RequestCancelled is
reported only when the signal is already aborted on entry to search. -/
theorem midflight_abort_semantics (up : Query → UpRes) (s : CacheState) :
    (∀ r rq, nth s.reqs r = some rq → rq.settled = none →
      sigIsAborted s rq.sig = true →
      (stepOr up s (.settle r)).writes = s.writes
      ∧ (stepOr up s (.settle r)).reqs
          = s.reqs.set r { rq with settled := some (up rq.q) })
    ∧ (∀ c cl r rq out, nth s.callers c = some cl → cl.phase = .joined r →
      nth s.reqs r = some rq → rq.settled = some out →
      (stepOr up s (.deliver c)).callers
        = s.callers.set c { cl with phase := .done (deliverOutcome out) }) := by
  refine ⟨?_, ?_⟩
  · intro r rq hrq hst hab
    have hstep : step up s (.settle r)
        = some { s with
            reqs := s.reqs.set r { rq with settled := some (up rq.q) },
            pending := aerase s.pending rq.q,
            writes := s.writes } := by
      simp only [step]
      rw [hrq]
      simp only
      rw [hst]
      simp only
      cases hout : up rq.q with
      | ok v =>
        rw [hab]
        rfl
      | error e => rfl
    unfold stepOr
    rw [hstep]
    exact ⟨rfl, rfl⟩
  · intro c cl r rq out hcl hph hrq hst
    have hstep : step up s (.deliver c)
        = some { s with callers :=
            s.callers.set c { cl with phase := .done (deliverOutcome out) } } := by
      simp only [step]
      rw [hcl]
      simp only
      rw [hph]
      simp only
      rw [hrq]
      simp only
      rw [hst]
    unfold stepOr
    rw [hstep]
    rfl

/-- C8 witness: the amended theorem applied at the state where request
0 is in flight with its signal aborted, and at the settled state where
caller 0 is delivered the Address outcome. -/
theorem midflight_abort_semantics_witness :
    (stepOr upAddr abortMidState (.settle 0)).writes = abortMidState.writes
    ∧ (stepOr upAddr abortSettledState (.deliver 0)).callers
        = abortSettledState.callers.set 0
            { q := "q", sig := some 0, phase := .done (.ok (.addr addrBR)) } := by
  refine ⟨?_, ?_⟩
  · exact ((midflight_abort_semantics upAddr abortMidState).1 0
      { q := "q", sig := some 0, settled := none } (by decide) rfl (by decide)).1
  · exact (midflight_abort_semantics upAddr abortSettledState).2 0
      { q := "q", sig := some 0, phase := .joined 0 } 0
      { q := "q", sig := some 0, settled := some (.ok (some addrBR)) }
      (.ok (some addrBR)) (by decide) rfl (by decide) (by decide)

/-- C9: Throttler.search hands the wrapped geocoder the query alone:
every recorded invocation passes no options and hence no abort signal
(the task built on line 27 of Throttler.ts closes over q only), and the
one invocation made when the signal is not already aborted is exactly
the call of q with no options, whose outcome is returned. -/
theorem throttler_drops_options (geo : Query → Option Bool → UpRes)
    (q : Query) (opts : Option Bool) :
    (throttlerSearch geo q opts).2
      = (if opts = some true then [] else [(q, none)])
    ∧ (throttlerSearch geo q opts).1
      = (if opts = some true then .error .pqAbort else geo q none) := by
  unfold throttlerSearch
  by_cases h : opts = some true
  · rw [if_pos h, if_pos h, if_pos h]
    exact ⟨rfl, rfl⟩
  · rw [if_neg h, if_neg h, if_neg h]
    exact ⟨rfl, rfl⟩

/-- C10: a LoadBalancer over exactly one geocoder wraps it in no
Fallback at all (the peer list is empty, the fold returns the base
geocoder) and the selection over a single provider always picks it;
in general the wrapped geocoder of provider i is the left fold of
Fallback over its peers in index order (the providers before i followed
by the providers after i) with provider i as the innermost primary. -/
theorem lb_fallback_wiring {α : Type} (gs : List α) (g : α) (i : Nat)
    (p : Provider) (hi : nth gs i = some g) :
    lbProviders [g] = [.base g]
    ∧ select [p] = some (0, p)
    ∧ nth (lbProviders gs) i
        = some ((gs.take i ++ gs.drop (i + 1)).foldl
            (fun mem geo => .fb mem (.base geo)) (.base g)) :=
  ⟨rfl, rfl, lbProviders_nth gs i g hi⟩

/-- C10 witness: three geocoders; provider 1 is wrapped as
Fallback(Fallback(base b, base a), base c). -/
theorem lb_fallback_wiring_witness :
    lbProviders ["b"] = [.base "b"]
    ∧ select [{ queueSize := 4, pendingCount := 2 }]
        = some (0, { queueSize := 4, pendingCount := 2 })
    ∧ nth (lbProviders ["a", "b", "c"]) 1
        = some (.fb (.fb (.base "b") (.base "a")) (.base "c")) := by
  have h := lb_fallback_wiring ["a", "b", "c"] "b" 1
    { queueSize := 4, pendingCount := 2 } (by decide)
  exact ⟨h.1, h.2.1, h.2.2.trans (by decide)⟩

end Geocoder
